import Mathlib

/-!
Verification development for the spanner-orm model layer (`spanner_orm/model.py`).

The embedding below translates the record-instance state machine and the
class-level persistence engine into executable Lean definitions:

* Python dictionaries become association lists over `String` keys, looked up
  and updated by `aget`/`aset` (first matching key wins, mirroring the unique
  keys of a Python dict).
* Python `None` is the dedicated value `Value.nullV`.
* Exceptions become `Except SpannerErr`; an `.error` result means the
  operation raised before any store call was issued.
* Calls into the external Database API are reified as `WriteCall`/`ReadCall`
  records, so theorems can count and inspect the writes and reads an
  operation issues.  The transaction handle only selects which connection
  executes a call and carries no data, so it is not modelled.
* Parts of the repository that are not in `model.py` (the field validator,
  the query builder, the Database API itself) are modelled from the spec and
  marked as such in their doc comments.
-/

set_option maxRecDepth 8192

namespace SpannerOrm

instance {ε α : Type} [DecidableEq ε] [DecidableEq α] :
    DecidableEq (Except ε α) := fun x y =>
  match x, y with
  | .ok a, .ok b =>
    if h : a = b then .isTrue (by rw [h])
    else .isFalse (by intro he; cases he; exact h rfl)
  | .error e, .error f =>
    if h : e = f then .isTrue (by rw [h])
    else .isFalse (by intro he; cases he; exact h rfl)
  | .ok _, .error _ => .isFalse (by intro h; cases h)
  | .error _, .ok _ => .isFalse (by intro h; cases h)

/-- Scalar column values; the Python `None` is `Value.nullV`. -/
inductive Value where
  | intV (i : Int)
  | strV (s : String)
  | boolV (b : Bool)
  | nullV
deriving DecidableEq, Repr

/-- Association-list lookup, mirroring a Python dict lookup (keys are unique). -/
def aget {α : Type} : List (String × α) → String → Option α
  | [], _ => none
  | p :: rest, k => if p.1 = k then some p.2 else aget rest k

/-- Lookup with a default, mirroring Python `dict.get`. -/
def agetD {α : Type} (l : List (String × α)) (k : String) (d : α) : α :=
  (aget l k).getD d

/-- Lookup of a value with default `None`, mirroring `values.get(column)`. -/
def vgetD (l : List (String × Value)) (k : String) : Value :=
  agetD l k .nullV

/-- Association-list update, mirroring Python dict item assignment: replace the
existing entry in place, otherwise append a new one. -/
def aset {α : Type} : List (String × α) → String → α → List (String × α)
  | [], k, v => [(k, v)]
  | p :: rest, k, v => if p.1 = k then (p.1, v) :: rest else p :: aset rest k v

/-- Declared column types (a representative subset). -/
inductive FieldType where
  | intT
  | strT
  | boolT
deriving DecidableEq, Repr

/-- A declared column: its type and nullability. -/
structure Field where
  field_type : FieldType
  nullable : Bool
deriving DecidableEq, Repr

/-- The declared type a scalar value inhabits (`none` for null). -/
def Value.typeOf : Value → Option FieldType
  | .intV _ => some .intT
  | .strV _ => some .strT
  | .boolV _ => some .boolT
  | .nullV => none

/-- Modelled from the spec: the Field Validator (`field.Field.validate` is not
under src/).  It accepts `None` iff the field is nullable, and otherwise
requires the value's type to match the declared type. -/
def Field.validate (f : Field) (v : Value) : Bool :=
  match v with
  | .nullV => f.nullable
  | _ => decide (v.typeOf = some f.field_type)

/-- The finalized metadata of a model class: table name, declared fields in
declaration order, relation names, and primary-key column names. -/
structure Meta where
  table : String
  fields : List (String × Field)
  relations : List String
  primary_keys : List String
deriving DecidableEq, Repr

/-- `ModelMetaclass.columns`: the declared column names in order. -/
def Meta.columns (m : Meta) : List String := m.fields.map Prod.fst

/-- Well-formedness of finalized metadata: column names are distinct, primary
keys are declared columns, and relation names do not collide with columns
(in the source, fields and relations are distinct class attributes). -/
def Meta.wf (m : Meta) : Prop :=
  m.columns.Nodup ∧ (∀ k ∈ m.primary_keys, k ∈ m.columns) ∧
    (∀ r ∈ m.relations, r ∉ m.columns)

instance (m : Meta) : Decidable m.wf := by
  unfold Meta.wf; exact inferInstance

/-- `ModelMetaclass.validate_value`: validate one column's value against its
declared field (a column outside the schema never occurs at call sites). -/
def validateCol (meta : Meta) (c : String) (v : Value) : Bool :=
  match aget meta.fields c with
  | some f => f.validate v
  | none => true

/-- The errors raised by the model layer, with the data each carries. -/
inductive SpannerErr where
  | invalidKeys (model : String) (keys : List String)
  | mismatchedKeys
  | validationErr (column : String) (value : Value)
  | missingKeys (keys : List String)
  | attributeErr (attr : String)
  | keyErr (column : String)
deriving DecidableEq, Repr

/-- The per-row state of a record instance: live column values, the baseline
snapshot `start_values`, relation attributes copied at construction, and the
`_persisted` flag. -/
structure ModelInst where
  values : List (String × Value)
  start_values : List (String × Value)
  rel_values : List (String × Value)
  persisted : Bool
deriving DecidableEq, Repr

/-- The population step shared by both branches of `Model.__init__`: copy every
column into the live values and the baseline snapshot, and copy any relation
present in the input. -/
def populate (meta : Meta) (values : List (String × Value)) (persisted : Bool) :
    ModelInst :=
  { values := meta.columns.map (fun c => (c, vgetD values c))
    start_values := meta.columns.map (fun c => (c, vgetD values c))
    rel_values :=
      (meta.relations.filter (fun r => (aget values r).isSome)).map
        (fun r => (r, vgetD values r))
    persisted := persisted }

/-- The primary-key columns absent from an input mapping (`missing_keys`). -/
def missingOf (meta : Meta) (values : List (String × Value)) : List String :=
  meta.primary_keys.filter (fun k => (aget values k).isNone)

/-- The first declared column whose input value fails validation, in column
order — the column at which `Model.__init__`'s validation loop raises. -/
def firstInvalid (meta : Meta) (values : List (String × Value)) : Option String :=
  meta.columns.find? (fun c => !validateCol meta c (vgetD values c))

/-- `Model.__init__`: for a non-persisted construction, check primary-key
completeness, then validate every declared column; a persisted construction
trusts the values and populates directly. -/
def initModel (meta : Meta) (values : List (String × Value)) (persisted : Bool) :
    Except SpannerErr ModelInst :=
  if persisted then .ok (populate meta values true)
  else if missingOf meta values = [] then
    match firstInvalid meta values with
    | some c => .error (.validationErr c (vgetD values c))
    | none => .ok (populate meta values false)
  else .error (.missingKeys (missingOf meta values))

/-- `Model.__setattr__`: relations are read-only, primary keys are immutable,
other declared columns are validated and then updated in the live values only.
Attributes outside the schema fall through to plain attribute storage; the
internal flags stored that way are dedicated structure fields here, updated
directly by their call sites, so the fall-through leaves the record part
unchanged. -/
def ModelInst.setAttr (m : ModelInst) (meta : Meta) (attr : String) (v : Value) :
    Except SpannerErr ModelInst :=
  if attr ∈ meta.relations then .error (.attributeErr attr)
  else if (aget meta.fields attr).isSome then
    if attr ∈ meta.primary_keys then .error (.attributeErr attr)
    else if validateCol meta attr v then
      .ok { m with values := aset m.values attr v }
    else .error (.validationErr attr v)
  else .ok m

/-- The `Model.values` property: current value of every declared column. -/
def ModelInst.values_map (m : ModelInst) (meta : Meta) : List (String × Value) :=
  meta.columns.map (fun c => (c, vgetD m.values c))

/-- `Model.changes`: the columns whose live value differs from the baseline
snapshot, with their live values. -/
def ModelInst.changes (m : ModelInst) (meta : Meta) : List (String × Value) :=
  (meta.columns.filter
      (fun c => decide (vgetD m.values c ≠ vgetD m.start_values c))).map
    (fun c => (c, vgetD m.values c))

/-- `Model.id`: the primary-key subset of the current values. -/
def ModelInst.id (m : ModelInst) (meta : Meta) : List (String × Value) :=
  meta.primary_keys.map (fun k => (k, vgetD (m.values_map meta) k))

/-- The operation kind of a write issued to the Database API. -/
inductive WriteKind where
  | insert
  | update
  | upsert
deriving DecidableEq, Repr

/-- A reified call to the Database API's `insert`/`update`/`upsert`: the table,
the shared column list, and one value row per written mapping. -/
structure WriteCall where
  kind : WriteKind
  table : String
  columns : Option (List String)
  values : List (List Value)
deriving DecidableEq, Repr

/-- A reified call to the Database API's `find`: table, columns, keyset. -/
structure ReadCall where
  table : String
  columns : List String
  key_values : List (List Value)
deriving DecidableEq, Repr

/-- The keys of one write's value mapping (`dictionary.keys()`). -/
def keysOf (d : List (String × Value)) : List String := d.map Prod.fst

/-- Equality of Python dict key views, which compare as sets. -/
def keysEqSet (a b : List String) : Prop :=
  (∀ k ∈ a, k ∈ b) ∧ (∀ k ∈ b, k ∈ a)

instance : ∀ a b, Decidable (keysEqSet a b) := fun a b => by
  unfold keysEqSet; exact inferInstance

/-- The loop of `ModelApi._execute_write`: per mapping, reject undeclared
keys, fix the shared column list from the first mapping, reject mismatched
key sets, validate every value, and append the column-ordered value row. -/
def execute_write_aux (meta : Meta) (model_name : String) :
    List (List (String × Value)) → Option (List String) → List (List Value) →
      Except SpannerErr (Option (List String) × List (List Value))
  | [], cols, vals => .ok (cols, vals)
  | d :: rest, cols, vals =>
    if (keysOf d).filter (fun k => decide (k ∉ meta.columns)) = [] then
      if keysEqSet (cols.getD (keysOf d)) (keysOf d) then
        match d.find? (fun p => !validateCol meta p.1 p.2) with
        | some p => .error (.validationErr p.1 p.2)
        | none =>
          execute_write_aux meta model_name rest (some (cols.getD (keysOf d)))
            (vals ++ [(cols.getD (keysOf d)).map (fun c => vgetD d c)])
      else .error .mismatchedKeys
    else .error (.invalidKeys model_name
      ((keysOf d).filter (fun k => decide (k ∉ meta.columns))))

/-- `ModelApi._execute_write`: validate all mappings, then issue exactly one
write call with the shared column list and the rectangular value matrix.  An
`.error` result is raised before the Database API is called, so no write is
issued in that case. -/
def execute_write (meta : Meta) (model_name : String) (kind : WriteKind)
    (dictionaries : List (List (String × Value))) : Except SpannerErr WriteCall :=
  match execute_write_aux meta model_name dictionaries none [] with
  | .error e => .error e
  | .ok (cols, vals) =>
    .ok { kind := kind, table := meta.table, columns := cols, values := vals }

/-- `ModelApi.create`: a single-mapping insert write. -/
def create (meta : Meta) (model_name : String)
    (kwargs : List (String × Value)) : Except SpannerErr WriteCall :=
  execute_write meta model_name .insert [kwargs]

/-- `ModelApi.update`: a single-mapping update write. -/
def update (meta : Meta) (model_name : String)
    (kwargs : List (String × Value)) : Except SpannerErr WriteCall :=
  execute_write meta model_name .update [kwargs]

/-- `ModelApi.create_or_update`: a single-mapping upsert write. -/
def create_or_update (meta : Meta) (model_name : String)
    (kwargs : List (String × Value)) : Except SpannerErr WriteCall :=
  execute_write meta model_name .upsert [kwargs]

/-- Python `dict.update`: merge `b` into `a`, overwriting in place and
appending new keys in order. -/
def dictUpdate (a b : List (String × Value)) : List (String × Value) :=
  b.foldl (fun acc kv => aset acc kv.1 kv.2) a

/-- `Model.save`: a persisted instance issues an update of its changes merged
with its primary-key values, unless there are no changes; a fresh instance
issues a create with its full values and flips the persisted flag.  The
returned list holds the write calls the save issued. -/
def ModelInst.save (m : ModelInst) (meta : Meta) (model_name : String) :
    Except SpannerErr (ModelInst × List WriteCall) :=
  if m.persisted then
    if m.changes meta = [] then .ok (m, [])
    else
      match update meta model_name (dictUpdate (m.changes meta) (m.id meta)) with
      | .ok w => .ok (m, [w])
      | .error e => .error e
  else
    match create meta model_name (m.values_map meta) with
    | .ok w => .ok ({ m with persisted := true }, [w])
    | .error e => .error e

/-- An error-propagating map over a list, mirroring a Python loop in which the
first raised exception aborts the remaining iterations. -/
def exMapM {α β : Type} (f : α → Except SpannerErr β) :
    List α → Except SpannerErr (List β)
  | [] => .ok []
  | a :: l =>
    match f a with
    | .error e => .error e
    | .ok b =>
      match exMapM f l with
      | .error e => .error e
      | .ok bs => .ok (b :: bs)

/-- The rows of the external store, each ordered by the schema's columns. -/
structure Store where
  rows : List (List Value)
deriving DecidableEq, Repr

/-- The primary-key tuple of a stored row. -/
def rowKey (meta : Meta) (row : List Value) : List Value :=
  meta.primary_keys.map (fun k => vgetD (meta.columns.zip row) k)

/-- Modelled from the spec: the external Database API's `find` (a point read)
returns exactly the rows whose primary-key tuple is in the requested keyset. -/
def dbFind (meta : Meta) (st : Store) (key_values : List (List Value)) :
    List (List Value) :=
  st.rows.filter (fun row => decide (rowKey meta row ∈ key_values))

/-- `ModelApi._results_to_models` for one row: zip the columns with the result
row and construct a trusted (persisted) instance. -/
def resultToModel (meta : Meta) (row : List Value) : ModelInst :=
  populate meta (meta.columns.zip row) true

/-- The keyset construction inside `ModelApi.find_multi`: one primary-key
tuple per requested mapping; a missing entry raises a `KeyError`. -/
def buildKeyVals (meta : Meta) (keys : List (List (String × Value))) :
    Except SpannerErr (List (List Value)) :=
  exMapM
    (fun key =>
      exMapM
        (fun c =>
          match aget key c with
          | some v => .ok v
          | none => .error (.keyErr c))
        meta.primary_keys)
    keys

/-- `ModelApi.find_multi`: build the keyset from the requested key mappings,
then issue a single point read and convert the results.  The second component
lists the read calls issued; a keyset-building failure issues none. -/
def find_multi (meta : Meta) (st : Store) (keys : List (List (String × Value))) :
    Except SpannerErr (List ModelInst) × List ReadCall :=
  match buildKeyVals meta keys with
  | .error e => (.error e, [])
  | .ok kvs =>
    (.ok ((dbFind meta st kvs).map (resultToModel meta)),
      [{ table := meta.table, columns := meta.columns, key_values := kvs }])

/-- `ModelApi.find`: `find_multi` with a single key mapping, returning the
first result or `none`. -/
def find (meta : Meta) (st : Store) (key : List (String × Value)) :
    Except SpannerErr (Option ModelInst) × List ReadCall :=
  match find_multi meta st [key] with
  | (.ok rs, calls) => (.ok rs.head?, calls)
  | (.error e, calls) => (.error e, calls)

/-- The column-overwriting loop of `Model.reload`: assign each listed column
of the fetched instance through `__setattr__`, propagating its failures. -/
def setCols (meta : Meta) (u : ModelInst) :
    List String → ModelInst → Except SpannerErr ModelInst
  | [], m => .ok m
  | c :: rest, m =>
    match m.setAttr meta c (vgetD u.values c) with
    | .error e => .error e
    | .ok m2 => setCols meta u rest m2

/-- `Model.reload`: re-fetch the row by primary key; absent rows yield
`none` without mutating the instance; otherwise overwrite every non-key
column from the fetched instance and mark the instance persisted. -/
def ModelInst.reload (m : ModelInst) (meta : Meta) (st : Store) :
    Except SpannerErr (Option ModelInst) :=
  match (find meta st (m.id meta)).1 with
  | .error e => .error e
  | .ok none => .ok none
  | .ok (some u) =>
    match setCols meta u
        (meta.columns.filter (fun c => decide (c ∉ meta.primary_keys))) m with
    | .error e => .error e
    | .ok m2 => .ok (some { m2 with persisted := true })

/-- The operation kind `ModelApi.save_batch` routes one instance to. -/
def kindOf (force_write : Bool) (m : ModelInst) : WriteKind :=
  if force_write then .upsert
  else if m.persisted then .update
  else .insert

/-- One step of the `defaultdict` accumulation in `save_batch`: append the row
to its kind's group, creating the group at the end on first use (kinds stay
unique, as the keys of the Python dict are). -/
def addWork : List (WriteKind × List (List (String × Value))) → WriteKind →
    List (String × Value) → List (WriteKind × List (List (String × Value)))
  | [], k, v => [(k, [v])]
  | p :: rest, k, v =>
    if p.1 = k then (p.1, p.2 ++ [v]) :: rest else p :: addWork rest k v

/-- The partitioning loop of `ModelApi.save_batch`, grouping each instance's
full value mapping under its operation kind. -/
def save_batch_work (meta : Meta) (force_write : Bool) :
    List ModelInst → List (WriteKind × List (List (String × Value))) →
      List (WriteKind × List (List (String × Value)))
  | [], acc => acc
  | m :: rest, acc =>
    save_batch_work meta force_write rest
      (addWork acc (kindOf force_write m) (m.values_map meta))

/-- `ModelApi.save_batch`: partition the instances by operation kind, marking
every instance persisted during partitioning, then issue one write call per
kind.  The first component is the batch's instances after the flag updates;
the second is the outcome of the write phase. -/
def save_batch (meta : Meta) (model_name : String) (models : List ModelInst)
    (force_write : Bool) :
    List ModelInst × Except SpannerErr (List WriteCall) :=
  (models.map (fun m => { m with persisted := true }),
    exMapM (fun p => execute_write meta model_name p.1 p.2)
      (save_batch_work meta force_write models []))

/-- The condition DSL surface used by the model layer. -/
inductive Condition where
  | equal_to (column : String) (value : Value)
  | in_list (column : String) (values : List Value)
deriving DecidableEq, Repr

/-- A keyword-constraint value: Python's `isinstance(value, list)` split. -/
inductive CVal where
  | scalar (v : Value)
  | listVal (vs : List Value)
deriving DecidableEq, Repr

/-- The translation applied to one keyword constraint by `where_equal` and
`count_equal`. -/
def toCondition (column : String) : CVal → Condition
  | .scalar v => .equal_to column v
  | .listVal vs => .in_list column vs

/-- The constraint-translation loop shared by `where_equal`/`count_equal`. -/
def constraintsToConditions (constraints : List (String × CVal)) :
    List Condition :=
  constraints.foldl (fun acc p => acc ++ [toCondition p.1 p.2]) []

/-- Whether a row satisfies one condition. -/
def Condition.holds (row : List (String × Value)) : Condition → Bool
  | .equal_to c v => decide (vgetD row c = v)
  | .in_list c vs => decide (vgetD row c ∈ vs)

/-- Modelled from the spec: the condition-based `ModelApi.where` (its query
builder lives outside src/) returns the stored rows satisfying every
condition, converted to persisted instances. -/
def whereCond (meta : Meta) (st : Store) (conds : List Condition) :
    List ModelInst :=
  ((st.rows.map (fun row => meta.columns.zip row)).filter
      (fun row => conds.all (fun c => c.holds row))).map
    (fun row => populate meta row true)

/-- Modelled from the spec: the condition-based `ModelApi.count` counts the
stored rows satisfying every condition. -/
def countCond (meta : Meta) (st : Store) (conds : List Condition) : Nat :=
  ((st.rows.map (fun row => meta.columns.zip row)).filter
      (fun row => conds.all (fun c => c.holds row))).length

/-- `ModelApi.where_equal`: translate keyword constraints to conditions and
delegate to the condition-based select. -/
def where_equal (meta : Meta) (st : Store)
    (constraints : List (String × CVal)) : List ModelInst :=
  whereCond meta st (constraintsToConditions constraints)

/-- `ModelApi.count_equal`: translate keyword constraints to conditions and
delegate to the condition-based count. -/
def count_equal (meta : Meta) (st : Store)
    (constraints : List (String × CVal)) : Nat :=
  countCond meta st (constraintsToConditions constraints)

/-! ### Concrete schema and instances used by witnesses and counterexamples -/

/-- A two-column demonstration schema: integer primary key `id`, non-nullable
integer column `data`, one relation `parent`. -/
def M1 : Meta :=
  { table := "TestTable"
    fields := [("id", { field_type := .intT, nullable := false }),
               ("data", { field_type := .intT, nullable := false })]
    relations := ["parent"]
    primary_keys := ["id"] }

/-- A persisted instance of `M1`, as a read result would build it. -/
def demoPersisted : ModelInst :=
  populate M1 [("id", Value.intV 1), ("data", Value.intV 0)] true

/-- `demoPersisted` after mutating `data` through attribute assignment. -/
def demoMutated : ModelInst :=
  match demoPersisted.setAttr M1 "data" (Value.intV 2) with
  | .ok m => m
  | .error _ => demoPersisted

/-- The instance state after saving `demoMutated`. -/
def demoSavedC1 : ModelInst :=
  match demoMutated.save M1 "TestModel" with
  | .ok r => r.1
  | .error _ => demoMutated

/-- A backing store for `M1` holding the row `id = 1, data = 5`. -/
def st1 : Store := { rows := [[Value.intV 1, Value.intV 5]] }

/-- The instance state after reloading `demoPersisted` against `st1`. -/
def demoReloaded : ModelInst :=
  match demoPersisted.reload M1 st1 with
  | .ok (some m) => m
  | _ => demoPersisted

/-- A fresh (non-persisted) instance of `M1`. -/
def demoFresh : ModelInst :=
  match initModel M1 [("id", Value.intV 1), ("data", Value.intV 0)] false with
  | .ok m => m
  | .error _ => demoPersisted

/-- `demoFresh` after mutating `data`, still non-persisted. -/
def demoFreshMut : ModelInst :=
  match demoFresh.setAttr M1 "data" (Value.intV 1) with
  | .ok m => m
  | .error _ => demoFresh

/-- The instance state after the first save of `demoFreshMut`. -/
def demoFreshSaved : ModelInst :=
  match demoFreshMut.save M1 "TestModel" with
  | .ok r => r.1
  | .error _ => demoFreshMut

/-- An instance of `M1` carrying a value its field forbids (reachable through
a trusted persisted construction, which skips validation). -/
def badInst : ModelInst :=
  populate M1 [("id", Value.intV 1), ("data", Value.nullV)] true

/-! ### Association-list and key-set lemmas -/

theorem aget_aset_self {α : Type} (l : List (String × α)) (k : String) (v : α) :
    aget (aset l k v) k = some v := by
  induction l with
  | nil => simp [aset, aget]
  | cons p rest ih =>
    by_cases h : p.1 = k
    · simp [aset, aget, h]
    · simp [aset, aget, h, ih]

theorem aget_aset_ne {α : Type} (l : List (String × α)) {k c : String} (v : α)
    (h : c ≠ k) : aget (aset l k v) c = aget l c := by
  induction l with
  | nil =>
    simp only [aset, aget]
    rw [if_neg (fun he : k = c => h he.symm)]
  | cons p rest ih =>
    by_cases hp : p.1 = k
    · rw [aset, if_pos hp]
      have hpc : ¬ p.1 = c := fun he => h (he ▸ hp)
      simp only [aget]
      rw [if_neg hpc, if_neg hpc]
    · rw [aset, if_neg hp]
      simp only [aget]
      by_cases hc : p.1 = c
      · rw [if_pos hc, if_pos hc]
      · rw [if_neg hc, if_neg hc]
        exact ih

theorem aget_isSome_iff {α : Type} (l : List (String × α)) (k : String) :
    (aget l k).isSome ↔ k ∈ l.map Prod.fst := by
  induction l with
  | nil => simp [aget]
  | cons p rest ih =>
    simp only [aget, List.map_cons, List.mem_cons]
    by_cases h : p.1 = k
    · simp [h]
    · rw [if_neg h]
      rw [ih]
      constructor
      · exact fun hm => Or.inr hm
      · rintro (h1 | hm)
        · exact absurd h1.symm h
        · exact hm

theorem aget_fields_isSome (meta : Meta) (c : String) :
    (aget meta.fields c).isSome ↔ c ∈ meta.columns :=
  aget_isSome_iff meta.fields c

theorem aget_map_self (l : List String) (g : String → Value) {c : String}
    (h : c ∈ l) : aget (l.map (fun x => (x, g x))) c = some (g c) := by
  induction l with
  | nil => cases h
  | cons x rest ih =>
    by_cases hx : x = c
    · subst hx; simp [aget]
    · rcases List.mem_cons.mp h with rfl | hmem
      · exact absurd rfl hx
      · simp [aget, hx, ih hmem]

theorem vgetD_map_self (l : List String) (g : String → Value) {c : String}
    (h : c ∈ l) : vgetD (l.map (fun x => (x, g x))) c = g c := by
  simp [vgetD, agetD, aget_map_self l g h]

theorem keysOf_map_pair (l : List String) (g : String → Value) :
    keysOf (l.map (fun x => (x, g x))) = l := by
  simp [keysOf, List.map_map]
  exact List.map_id l

theorem keysEqSet_refl (a : List String) : keysEqSet a a :=
  ⟨fun _ h => h, fun _ h => h⟩

theorem keysEqSet_symm {a b : List String} (h : keysEqSet a b) : keysEqSet b a :=
  ⟨h.2, h.1⟩

theorem keysEqSet_trans {a b c : List String} (h1 : keysEqSet a b)
    (h2 : keysEqSet b c) : keysEqSet a c :=
  ⟨fun k hk => h2.1 k (h1.1 k hk), fun k hk => h1.2 k (h2.2 k hk)⟩

/-! ### Claim C6 — primary keys and relations are immutable on an instance -/

/-- Claim C6: assigning to a primary-key column or to a relation attribute of
a record instance always fails with an immutability error carrying the
attribute name, regardless of the assigned value — in particular even when it
equals the current value.  Because the assignment raises before any state is
produced, the stored value is unchanged. -/
theorem claim_C6 (meta : Meta) (m : ModelInst) (attr : String) (v : Value)
    (hWF : meta.wf) (h : attr ∈ meta.primary_keys ∨ attr ∈ meta.relations) :
    m.setAttr meta attr v = .error (.attributeErr attr) := by
  obtain ⟨-, hpk, hrel⟩ := hWF
  unfold ModelInst.setAttr
  rcases h with hp | hr
  · have hcol : attr ∈ meta.columns := hpk attr hp
    have hnr : attr ∉ meta.relations := fun hmem => hrel attr hmem hcol
    have hf : (aget meta.fields attr).isSome :=
      (aget_fields_isSome meta attr).mpr hcol
    rw [if_neg hnr, if_pos hf, if_pos hp]
  · rw [if_pos hr]

/-- Witness for C6: on the concrete schema `M1`, assigning the primary key
`id` its current value, and assigning the relation `parent`, both fail. -/
theorem claim_C6_witness :
    demoPersisted.setAttr M1 "id" (Value.intV 1) = .error (.attributeErr "id") ∧
    demoPersisted.setAttr M1 "parent" (Value.intV 7) =
      .error (.attributeErr "parent") :=
  ⟨claim_C6 M1 demoPersisted "id" (Value.intV 1) (by decide) (Or.inl (by decide)),
   claim_C6 M1 demoPersisted "parent" (Value.intV 7) (by decide)
     (Or.inr (by decide))⟩

/-! ### Claim C7 — construction-time checks -/

/-- Claim C7: constructing with persisted = false fails with a missing-key
error listing exactly the absent primary-key names whenever one is absent;
with all primary keys present it fails with a validation error naming the
offending column and its bad value whenever some declared column's value
violates its field rule — in particular a non-nullable field given null fails
its rule; constructing with persisted = true performs neither check and
always succeeds. -/
theorem claim_C7 (meta : Meta) (values : List (String × Value)) :
    ((∃ k ∈ meta.primary_keys, aget values k = none) →
      ∃ ks, initModel meta values false = .error (.missingKeys ks) ∧ ks ≠ [] ∧
        ∀ k, k ∈ ks ↔ (k ∈ meta.primary_keys ∧ aget values k = none)) ∧
    ((∀ k ∈ meta.primary_keys, (aget values k).isSome) →
      (∃ c ∈ meta.columns, validateCol meta c (vgetD values c) = false) →
      ∃ c, initModel meta values false =
          .error (.validationErr c (vgetD values c)) ∧
        c ∈ meta.columns ∧ validateCol meta c (vgetD values c) = false) ∧
    (∀ f : Field, f.validate .nullV = f.nullable) ∧
    initModel meta values true = .ok (populate meta values true) := by
  refine ⟨?_, ?_, fun f => rfl, rfl⟩
  · rintro ⟨k, hk, hnone⟩
    have hmem : k ∈ missingOf meta values := by
      simp [missingOf, List.mem_filter, hk, hnone]
    have hne : missingOf meta values ≠ [] := List.ne_nil_of_mem hmem
    refine ⟨missingOf meta values, ?_, hne, ?_⟩
    · simp only [initModel, Bool.false_eq_true, if_false]
      rw [if_neg hne]
    · intro k'
      simp [missingOf, List.mem_filter, Option.isNone_iff_eq_none]
  · intro hpk hex
    obtain ⟨c, hc, hval⟩ := hex
    have hmiss : missingOf meta values = [] := by
      unfold missingOf
      apply List.filter_eq_nil_iff.mpr
      intro k hk
      simp [Option.isNone_iff_eq_none, Option.isSome_iff_ne_none.mp (hpk k hk)]
    have hfs : (firstInvalid meta values).isSome := by
      unfold firstInvalid
      rw [List.find?_isSome]
      exact ⟨c, hc, by simp [hval]⟩
    obtain ⟨c0, hc0⟩ := Option.isSome_iff_exists.mp hfs
    have hc0p : validateCol meta c0 (vgetD values c0) = false := by
      have := List.find?_some hc0
      simpa using this
    have hc0m : c0 ∈ meta.columns := List.mem_of_find?_eq_some hc0
    refine ⟨c0, ?_, hc0m, hc0p⟩
    simp only [initModel, Bool.false_eq_true, if_false]
    rw [if_pos hmiss, hc0]

/-- Witness for C7: constructing on `M1` without the primary key fails with
the missing-key error, and constructing with a null `data` (a non-nullable
field) fails with the validation error. -/
theorem claim_C7_witness :
    (∃ ks, initModel M1 [("data", Value.intV 0)] false =
        .error (.missingKeys ks) ∧ ks ≠ [] ∧
      ∀ k, k ∈ ks ↔ (k ∈ M1.primary_keys ∧
        aget [("data", Value.intV 0)] k = none)) ∧
    (∃ c, initModel M1 [("id", Value.intV 1), ("data", Value.nullV)] false =
        .error (.validationErr c
          (vgetD [("id", Value.intV 1), ("data", Value.nullV)] c)) ∧
      c ∈ M1.columns ∧
      validateCol M1 c
        (vgetD [("id", Value.intV 1), ("data", Value.nullV)] c) = false) :=
  ⟨(claim_C7 M1 [("data", Value.intV 0)]).1 ⟨"id", by decide, by decide⟩,
   (claim_C7 M1 [("id", Value.intV 1), ("data", Value.nullV)]).2.1
     (by decide) ⟨"data", by decide, by decide⟩⟩

/-! ### Claim C8 — keyword constraints become conditions -/

theorem foldl_append_toCondition (constraints : List (String × CVal)) :
    ∀ acc, constraints.foldl (fun acc p => acc ++ [toCondition p.1 p.2]) acc =
      acc ++ constraints.map (fun p => toCondition p.1 p.2) := by
  induction constraints with
  | nil => simp
  | cons p rest ih =>
    intro acc
    simp only [List.foldl_cons, List.map_cons]
    rw [ih]
    simp [List.append_assoc]

/-- Claim C8: `where_equal` and `count_equal` translate each keyword
constraint into one condition — membership for a list-valued constraint,
equality for a scalar one — and delegate to the condition-based `where` and
`count` with exactly those conditions, in constraint order. -/
theorem claim_C8 (meta : Meta) (st : Store)
    (constraints : List (String × CVal)) :
    where_equal meta st constraints =
      whereCond meta st (constraints.map (fun p => toCondition p.1 p.2)) ∧
    count_equal meta st constraints =
      countCond meta st (constraints.map (fun p => toCondition p.1 p.2)) ∧
    (∀ c v, toCondition c (.scalar v) = .equal_to c v) ∧
    (∀ c vs, toCondition c (.listVal vs) = .in_list c vs) ∧
    (∀ row c vs,
      Condition.holds row (.in_list c vs) = decide (vgetD row c ∈ vs)) := by
  refine ⟨?_, ?_, fun c v => rfl, fun c vs => rfl, fun row c vs => rfl⟩
  · unfold where_equal constraintsToConditions
    rw [foldl_append_toCondition]
    simp
  · unfold count_equal constraintsToConditions
    rw [foldl_append_toCondition]
    simp

/-! ### Claim C9 — save_batch marks persisted before writing -/

/-- Claim C9: `save_batch` sets every instance's persisted flag during
partitioning, before the write phase; consequently, even when the write phase
fails with an error, every instance of the batch is left marked persisted. -/
theorem claim_C9 (meta : Meta) (model_name : String) (models : List ModelInst)
    (force_write : Bool) :
    (save_batch meta model_name models force_write).1 =
      models.map (fun m => { m with persisted := true }) ∧
    (∀ e, (save_batch meta model_name models force_write).2 = .error e →
      ∀ m ∈ (save_batch meta model_name models force_write).1,
        m.persisted = true) := by
  refine ⟨rfl, ?_⟩
  intro e _ m hm
  simp only [save_batch, List.mem_map] at hm
  obtain ⟨m0, -, rfl⟩ := hm
  rfl

/-- Witness for C9: a batch whose single write fails validation still leaves
its instance marked persisted. -/
theorem claim_C9_witness :
    (save_batch M1 "TestModel" [badInst] false).2 =
      .error (.validationErr "data" .nullV) ∧
    ∀ m ∈ (save_batch M1 "TestModel" [badInst] false).1, m.persisted = true :=
  ⟨by decide,
   (claim_C9 M1 "TestModel" [badInst] false).2
     (.validationErr "data" .nullV) (by decide)⟩

/-! ### Claim C1 — changes() after save() -/

/-- Counterexample to claim C1 as stated: a persisted instance of `M1` whose
`data` column was mutated saves successfully — issuing the update write — yet
`changes()` immediately afterwards still reports the mutated column, because
`save` never resets the baseline snapshot. -/
theorem claim_C1_counterexample :
    demoMutated.persisted = true ∧
    demoMutated.save M1 "TestModel" =
      .ok (demoSavedC1,
        [{ kind := .update, table := "TestTable",
           columns := some ["data", "id"],
           values := [[Value.intV 2, Value.intV 1]] }]) ∧
    demoSavedC1.changes M1 = [("data", Value.intV 2)] ∧
    demoSavedC1.changes M1 ≠ [] := by decide

/-- Claim C1 (amended): `save()` never resets the baseline snapshot, so
`changes()` immediately after a successful `save()` equals `changes()`
immediately before it.  In particular it is empty after the save exactly when
it was already empty before — not unconditionally, as claimed. -/
theorem claim_C1_amended (meta : Meta) (model_name : String) (m m' : ModelInst)
    (ws : List WriteCall) (h : m.save meta model_name = .ok (m', ws)) :
    m'.changes meta = m.changes meta := by
  unfold ModelInst.save at h
  by_cases hp : m.persisted
  · rw [if_pos hp] at h
    by_cases hc : m.changes meta = []
    · rw [if_pos hc] at h
      cases h
      rfl
    · rw [if_neg hc] at h
      cases hu : update meta model_name (dictUpdate (m.changes meta) (m.id meta)) with
      | ok w => rw [hu] at h; cases h; rfl
      | error e => rw [hu] at h; cases h
  · rw [if_neg hp] at h
    cases hu : create meta model_name (m.values_map meta) with
    | ok w => rw [hu] at h; cases h; rfl
    | error e => rw [hu] at h; cases h

/-- Witness for the amended C1 at a concrete input: saving the mutated
persisted instance leaves its `changes()` untouched. -/
theorem claim_C1_witness :
    demoSavedC1.changes M1 = demoMutated.changes M1 :=
  claim_C1_amended M1 "TestModel" demoMutated demoSavedC1
    [{ kind := .update, table := "TestTable", columns := some ["data", "id"],
       values := [[Value.intV 2, Value.intV 1]] }] (by decide)

/-! ### Claim C5 — the write primitive's validation contract -/

theorem execute_write_aux_ok {meta : Meta} {model_name : String} :
    ∀ (dicts : List (List (String × Value))) (K : List String)
      (vals : List (List Value))
      (res : Option (List String) × List (List Value)),
      execute_write_aux meta model_name dicts (some K) vals = .ok res →
      res.1 = some K ∧
      res.2 = vals ++ dicts.map (fun d => K.map (fun c => vgetD d c)) ∧
      ∀ d ∈ dicts, (∀ k ∈ keysOf d, k ∈ meta.columns) ∧
        keysEqSet K (keysOf d) := by
  intro dicts
  induction dicts with
  | nil =>
    intro K vals res h
    simp only [execute_write_aux] at h
    cases h
    exact ⟨rfl, by simp, by simp⟩
  | cons d rest ih =>
    intro K vals res h
    simp only [execute_write_aux, Option.getD_some] at h
    by_cases hinv : (keysOf d).filter (fun k => decide (k ∉ meta.columns)) = []
    · rw [if_pos hinv] at h
      by_cases hks : keysEqSet K (keysOf d)
      · rw [if_pos hks] at h
        cases hfind : d.find? (fun p => !validateCol meta p.1 p.2) with
        | some p =>
          simp only [hfind] at h
          exact Except.noConfusion h
        | none =>
          simp only [hfind] at h
          obtain ⟨h1, h2, h3⟩ := ih K _ res h
          have hkeys : ∀ k ∈ keysOf d, k ∈ meta.columns := by
            intro k hk
            by_contra hnk
            have hmem : k ∈ (keysOf d).filter (fun k => decide (k ∉ meta.columns)) :=
              List.mem_filter.mpr ⟨hk, by simpa using hnk⟩
            rw [hinv] at hmem
            cases hmem
          refine ⟨h1, ?_, ?_⟩
          · rw [h2]; simp
          · intro d' hd'
            rcases List.mem_cons.mp hd' with rfl | hmem
            · exact ⟨hkeys, hks⟩
            · exact h3 d' hmem
      · rw [if_neg hks] at h
        exact Except.noConfusion h
    · rw [if_neg hinv] at h
      exact Except.noConfusion h

theorem execute_write_aux_ok_start {meta : Meta} {model_name : String}
    {dicts : List (List (String × Value))}
    {res : Option (List String) × List (List Value)}
    (h : execute_write_aux meta model_name dicts none [] = .ok res) :
    (∀ d ∈ dicts, ∀ k ∈ keysOf d, k ∈ meta.columns) ∧
    (∀ d1 ∈ dicts, ∀ d2 ∈ dicts, keysEqSet (keysOf d1) (keysOf d2)) ∧
    (match dicts with
     | [] => res.1 = none ∧ res.2 = []
     | d0 :: _ =>
       res.1 = some (keysOf d0) ∧
       res.2 = dicts.map (fun d => (keysOf d0).map (fun c => vgetD d c))) := by
  cases dicts with
  | nil =>
    simp only [execute_write_aux] at h
    cases h
    exact ⟨by simp, by simp, rfl, rfl⟩
  | cons d0 rest =>
    simp only [execute_write_aux, Option.getD_none] at h
    by_cases hinv : (keysOf d0).filter (fun k => decide (k ∉ meta.columns)) = []
    · rw [if_pos hinv, if_pos (keysEqSet_refl (keysOf d0))] at h
      cases hfind : d0.find? (fun p => !validateCol meta p.1 p.2) with
      | some p =>
        simp only [hfind] at h
        exact Except.noConfusion h
      | none =>
        simp only [hfind] at h
        obtain ⟨h1, h2, h3⟩ := execute_write_aux_ok rest (keysOf d0) _ res h
        have hkeys0 : ∀ k ∈ keysOf d0, k ∈ meta.columns := by
          intro k hk
          by_contra hnk
          have hmem : k ∈ (keysOf d0).filter (fun k => decide (k ∉ meta.columns)) :=
            List.mem_filter.mpr ⟨hk, by simpa using hnk⟩
          rw [hinv] at hmem
          cases hmem
        have hall : ∀ d ∈ d0 :: rest,
            (∀ k ∈ keysOf d, k ∈ meta.columns) ∧ keysEqSet (keysOf d0) (keysOf d) := by
          intro d hd
          rcases List.mem_cons.mp hd with rfl | hm
          · exact ⟨hkeys0, keysEqSet_refl _⟩
          · exact h3 d hm
        refine ⟨fun d hd => (hall d hd).1, ?_, h1, ?_⟩
        · intro d1 hd1 d2 hd2
          exact keysEqSet_trans (keysEqSet_symm (hall d1 hd1).2) (hall d2 hd2).2
        · rw [h2]; simp
    · rw [if_neg hinv] at h
      exact Except.noConfusion h

/-- Success characterization of `_execute_write`: all keys declared, all key
sets equal, and the value matrix is one column-ordered row per mapping. -/
theorem execute_write_ok {meta : Meta} {model_name : String} {kind : WriteKind}
    {dicts : List (List (String × Value))} {w : WriteCall}
    (h : execute_write meta model_name kind dicts = .ok w) :
    (∀ d ∈ dicts, ∀ k ∈ keysOf d, k ∈ meta.columns) ∧
    (∀ d1 ∈ dicts, ∀ d2 ∈ dicts, keysEqSet (keysOf d1) (keysOf d2)) ∧
    w.kind = kind ∧ w.table = meta.table ∧
    (match dicts with
     | [] => w.columns = none ∧ w.values = []
     | d0 :: _ =>
       w.columns = some (keysOf d0) ∧
       w.values = dicts.map (fun d => (keysOf d0).map (fun c => vgetD d c))) := by
  unfold execute_write at h
  cases haux : execute_write_aux meta model_name dicts none [] with
  | error e =>
    rw [haux] at h
    exact Except.noConfusion h
  | ok res =>
    rw [haux] at h
    cases h
    obtain ⟨h1, h2, h3⟩ := execute_write_aux_ok_start haux
    cases dicts with
    | nil => exact ⟨h1, h2, rfl, rfl, h3.1, h3.2⟩
    | cons d0 rest => exact ⟨h1, h2, rfl, rfl, h3.1, h3.2⟩

theorem execute_write_aux_mismatch {meta : Meta} {model_name : String} :
    ∀ (dicts : List (List (String × Value))) (K : List String)
      (vals : List (List Value)),
      (∀ d ∈ dicts, (∀ k ∈ keysOf d, k ∈ meta.columns) ∧
        ∀ p ∈ d, validateCol meta p.1 p.2 = true) →
      (∃ d ∈ dicts, ¬ keysEqSet K (keysOf d)) →
      execute_write_aux meta model_name dicts (some K) vals =
        .error .mismatchedKeys := by
  intro dicts
  induction dicts with
  | nil =>
    intro K vals _ hex
    simp at hex
  | cons d rest ih =>
    intro K vals hval hex
    have hd := hval d (List.mem_cons_self d rest)
    have hinv : (keysOf d).filter (fun k => decide (k ∉ meta.columns)) = [] := by
      apply List.filter_eq_nil_iff.mpr
      intro k hk
      simpa using hd.1 k hk
    simp only [execute_write_aux, Option.getD_some]
    rw [if_pos hinv]
    by_cases hks : keysEqSet K (keysOf d)
    · rw [if_pos hks]
      have hfind : d.find? (fun p => !validateCol meta p.1 p.2) = none := by
        apply List.find?_eq_none.mpr
        intro p hp
        simp [hd.2 p hp]
      simp only [hfind]
      apply ih
      · intro d' hd'
        exact hval d' (List.mem_cons_of_mem d hd')
      · obtain ⟨d', hd', hne⟩ := hex
        rcases List.mem_cons.mp hd' with rfl | hm
        · exact absurd hks hne
        · exact ⟨d', hm, hne⟩
    · rw [if_neg hks]

/-- Claim C5: the write primitive validates every submitted mapping — an
undeclared key fails with the invalid-keys error naming the offending keys
and the record type before any write is issued; two mappings with different
key sets fail with the mismatched-keys error; on success the value matrix
passed to the store is rectangular, with one row per mapping ordered by the
shared column list; and `create`, `update` and `create_or_update` all funnel
through this primitive. -/
theorem claim_C5 (meta : Meta) (model_name : String) (kind : WriteKind)
    (dicts : List (List (String × Value))) :
    (∀ w, execute_write meta model_name kind dicts = .ok w →
      (∀ d ∈ dicts, ∀ k ∈ keysOf d, k ∈ meta.columns) ∧
      (∀ d1 ∈ dicts, ∀ d2 ∈ dicts, keysEqSet (keysOf d1) (keysOf d2)) ∧
      w.kind = kind ∧ w.table = meta.table ∧
      (match dicts with
       | [] => w.columns = none ∧ w.values = []
       | d0 :: _ =>
         w.columns = some (keysOf d0) ∧
         w.values = dicts.map (fun d => (keysOf d0).map (fun c => vgetD d c)) ∧
         ∀ row ∈ w.values, row.length = (keysOf d0).length)) ∧
    (∀ d rest, dicts = d :: rest →
      (keysOf d).filter (fun k => decide (k ∉ meta.columns)) ≠ [] →
      execute_write meta model_name kind dicts =
        .error (.invalidKeys model_name
          ((keysOf d).filter (fun k => decide (k ∉ meta.columns))))) ∧
    ((∃ d ∈ dicts, ∃ k ∈ keysOf d, k ∉ meta.columns) →
      ∃ e, execute_write meta model_name kind dicts = .error e) ∧
    ((∀ d ∈ dicts, (∀ k ∈ keysOf d, k ∈ meta.columns) ∧
        ∀ p ∈ d, validateCol meta p.1 p.2 = true) →
      (∃ d1 ∈ dicts, ∃ d2 ∈ dicts, ¬ keysEqSet (keysOf d1) (keysOf d2)) →
      execute_write meta model_name kind dicts = .error .mismatchedKeys) ∧
    (∀ kwargs : List (String × Value),
      create meta model_name kwargs =
        execute_write meta model_name .insert [kwargs] ∧
      update meta model_name kwargs =
        execute_write meta model_name .update [kwargs] ∧
      create_or_update meta model_name kwargs =
        execute_write meta model_name .upsert [kwargs]) := by
  refine ⟨?_, ?_, ?_, ?_, fun kwargs => ⟨rfl, rfl, rfl⟩⟩
  · intro w h
    obtain ⟨h1, h2, h3, h4, h5⟩ := execute_write_ok h
    cases dicts with
    | nil => exact ⟨h1, h2, h3, h4, h5⟩
    | cons d0 rest =>
      refine ⟨h1, h2, h3, h4, h5.1, h5.2, ?_⟩
      intro row hrow
      rw [h5.2] at hrow
      obtain ⟨d, -, rfl⟩ := List.mem_map.mp hrow
      simp
  · intro d rest hdeq hne
    subst hdeq
    simp only [execute_write, execute_write_aux]
    rw [if_neg hne]
  · intro hex
    cases hres : execute_write meta model_name kind dicts with
    | error e => exact ⟨e, rfl⟩
    | ok w =>
      obtain ⟨h1, -, -⟩ := execute_write_ok hres
      obtain ⟨d, hd, k, hk, hnk⟩ := hex
      exact absurd (h1 d hd k hk) hnk
  · intro hval hex
    cases dicts with
    | nil => simp at hex
    | cons d0 rest =>
      have hwit : ∃ d ∈ d0 :: rest, ¬ keysEqSet (keysOf d0) (keysOf d) := by
        by_contra hall
        push_neg at hall
        obtain ⟨d1, hd1, d2, hd2, hne⟩ := hex
        exact hne (keysEqSet_trans (keysEqSet_symm (hall d1 hd1)) (hall d2 hd2))
      have hd0 := hval d0 (List.mem_cons_self d0 rest)
      have hinv : (keysOf d0).filter (fun k => decide (k ∉ meta.columns)) = [] := by
        apply List.filter_eq_nil_iff.mpr
        intro k hk
        simpa using hd0.1 k hk
      have hfind : d0.find? (fun p => !validateCol meta p.1 p.2) = none := by
        apply List.find?_eq_none.mpr
        intro p hp
        simp [hd0.2 p hp]
      have haux : execute_write_aux meta model_name (d0 :: rest) none [] =
          .error .mismatchedKeys := by
        simp only [execute_write_aux, Option.getD_none]
        rw [if_pos hinv, if_pos (keysEqSet_refl (keysOf d0))]
        simp only [hfind]
        apply execute_write_aux_mismatch rest (keysOf d0)
        · intro d' hd'
          exact hval d' (List.mem_cons_of_mem d0 hd')
        · rcases hwit with ⟨d', hd', hne⟩
          rcases List.mem_cons.mp hd' with rfl | hm
          · exact absurd (keysEqSet_refl _) hne
          · exact ⟨d', hm, hne⟩
      simp [execute_write, haux]

/-- Witness for C5 at concrete inputs: an undeclared key fails naming it and
the record type, and mismatched key sets across two rows fail. -/
theorem claim_C5_witness :
    execute_write M1 "TestModel" .insert
      [[("id", Value.intV 1), ("bogus", Value.intV 2)]] =
      .error (.invalidKeys "TestModel" ["bogus"]) ∧
    execute_write M1 "TestModel" .insert
      [[("id", Value.intV 1), ("data", Value.intV 2)], [("id", Value.intV 3)]] =
      .error .mismatchedKeys := by
  constructor
  · have h := (claim_C5 M1 "TestModel" .insert
        [[("id", Value.intV 1), ("bogus", Value.intV 2)]]).2.1
        [("id", Value.intV 1), ("bogus", Value.intV 2)] [] rfl (by decide)
    have heq : (keysOf [("id", Value.intV 1), ("bogus", Value.intV 2)]).filter
        (fun k => decide (k ∉ M1.columns)) = ["bogus"] := by decide
    rw [heq] at h
    exact h
  · exact (claim_C5 M1 "TestModel" .insert
      [[("id", Value.intV 1), ("data", Value.intV 2)],
       [("id", Value.intV 3)]]).2.2.2.1 (by decide)
      ⟨[("id", Value.intV 1), ("data", Value.intV 2)], by decide,
       [("id", Value.intV 3)], by decide, by decide⟩

/-! ### Claim C3 — save_batch partitions by operation kind -/

/-- The group of rows accumulated under one operation kind. -/
def lookupKind (work : List (WriteKind × List (List (String × Value))))
    (k : WriteKind) : Option (List (List (String × Value))) :=
  (work.find? (fun p => decide (p.1 = k))).map Prod.snd

theorem lookupKind_addWork_same
    (work : List (WriteKind × List (List (String × Value))))
    (k : WriteKind) (v : List (String × Value)) :
    lookupKind (addWork work k v) k =
      some ((lookupKind work k).getD [] ++ [v]) := by
  induction work with
  | nil => simp [lookupKind, addWork]
  | cons p rest ih =>
    by_cases h : p.1 = k
    · simp [lookupKind, addWork, h]
    · simp only [addWork, if_neg h]
      simp only [lookupKind] at ih ⊢
      rw [List.find?_cons_of_neg _ (by simpa using h),
        List.find?_cons_of_neg _ (by simpa using h)]
      exact ih

theorem lookupKind_addWork_ne
    (work : List (WriteKind × List (List (String × Value))))
    {k q : WriteKind} (v : List (String × Value)) (h : q ≠ k) :
    lookupKind (addWork work k v) q = lookupKind work q := by
  induction work with
  | nil =>
    have hne : ¬ k = q := fun he => h he.symm
    simp [lookupKind, addWork, hne]
  | cons p rest ih =>
    by_cases hp : p.1 = k
    · have hq : ¬ p.1 = q := fun he => h (he ▸ hp)
      simp only [addWork, if_pos hp, lookupKind]
      rw [List.find?_cons_of_neg _ (by simpa using hq),
        List.find?_cons_of_neg _ (by simpa using hq)]
    · simp only [addWork, if_neg hp]
      by_cases hq : p.1 = q
      · simp only [lookupKind]
        rw [List.find?_cons_of_pos _ (by simpa using hq),
          List.find?_cons_of_pos _ (by simpa using hq)]
      · simp only [lookupKind] at ih ⊢
        rw [List.find?_cons_of_neg _ (by simpa using hq),
          List.find?_cons_of_neg _ (by simpa using hq)]
        exact ih

theorem save_batch_work_lookup (meta : Meta) (f : Bool) :
    ∀ (models : List ModelInst)
      (acc : List (WriteKind × List (List (String × Value)))) (k : WriteKind),
      lookupKind (save_batch_work meta f models acc) k =
        match lookupKind acc k with
        | some vs =>
          some (vs ++ (models.filter (fun m => decide (kindOf f m = k))).map
            (fun m => m.values_map meta))
        | none =>
          if models.filter (fun m => decide (kindOf f m = k)) = [] then none
          else some ((models.filter (fun m => decide (kindOf f m = k))).map
            (fun m => m.values_map meta)) := by
  intro models
  induction models with
  | nil =>
    intro acc k
    cases h : lookupKind acc k <;> simp [save_batch_work, h]
  | cons m rest ih =>
    intro acc k
    simp only [save_batch_work]
    rw [ih]
    by_cases hk : kindOf f m = k
    · rw [hk, lookupKind_addWork_same]
      have hfil : (m :: rest).filter (fun m => decide (kindOf f m = k)) =
          m :: rest.filter (fun m => decide (kindOf f m = k)) :=
        List.filter_cons_of_pos (by simpa using hk)
      cases hacc : lookupKind acc k with
      | some vs => simp [hacc, hfil]
      | none => simp [hacc, hfil]
    · rw [lookupKind_addWork_ne _ _ (fun he => hk he.symm)]
      have hfil : (m :: rest).filter (fun m => decide (kindOf f m = k)) =
          rest.filter (fun m => decide (kindOf f m = k)) :=
        List.filter_cons_of_neg (by simpa using hk)
      rw [hfil]

theorem addWork_keys (work : List (WriteKind × List (List (String × Value))))
    (k : WriteKind) (v : List (String × Value)) :
    (addWork work k v).map Prod.fst =
      if k ∈ work.map Prod.fst then work.map Prod.fst
      else work.map Prod.fst ++ [k] := by
  induction work with
  | nil => simp [addWork]
  | cons p rest ih =>
    by_cases hp : p.1 = k
    · simp [addWork, hp]
    · simp only [addWork, if_neg hp, List.map_cons, ih]
      have hne : ¬ k = p.1 := fun he => hp he.symm
      by_cases hm : k ∈ rest.map Prod.fst
      · simp [hm, hne]
      · simp [hm, hne]

theorem addWork_keys_nodup
    (work : List (WriteKind × List (List (String × Value))))
    (k : WriteKind) (v : List (String × Value))
    (h : (work.map Prod.fst).Nodup) :
    ((addWork work k v).map Prod.fst).Nodup := by
  rw [addWork_keys]
  by_cases hm : k ∈ work.map Prod.fst
  · rw [if_pos hm]; exact h
  · rw [if_neg hm]
    simp [List.nodup_append, h, hm]

theorem save_batch_work_keys_nodup (meta : Meta) (f : Bool) :
    ∀ (models : List ModelInst)
      (acc : List (WriteKind × List (List (String × Value)))),
      (acc.map Prod.fst).Nodup →
      ((save_batch_work meta f models acc).map Prod.fst).Nodup := by
  intro models
  induction models with
  | nil => intro acc h; exact h
  | cons m rest ih =>
    intro acc h
    exact ih _ (addWork_keys_nodup acc _ _ h)

/-- Claim C3: with force-write, `save_batch` routes every instance's full row
to one upsert group; without it, persisted instances route to one update
group and fresh ones to one insert group, each group holding all rows of its
kind in input order; the write phase issues exactly one write call per
accumulated group (group kinds are unique); and afterwards every instance of
the batch is marked persisted regardless of the path taken. -/
theorem claim_C3 (meta : Meta) (model_name : String) (models : List ModelInst) :
    (lookupKind (save_batch_work meta true models []) .upsert =
      (if models = [] then none
       else some (models.map (fun m => m.values_map meta))) ∧
     lookupKind (save_batch_work meta true models []) .update = none ∧
     lookupKind (save_batch_work meta true models []) .insert = none) ∧
    (lookupKind (save_batch_work meta false models []) .update =
      (if models.filter (fun m => m.persisted) = [] then none
       else some ((models.filter (fun m => m.persisted)).map
         (fun m => m.values_map meta))) ∧
     lookupKind (save_batch_work meta false models []) .insert =
      (if models.filter (fun m => !m.persisted) = [] then none
       else some ((models.filter (fun m => !m.persisted)).map
         (fun m => m.values_map meta))) ∧
     lookupKind (save_batch_work meta false models []) .upsert = none) ∧
    (∀ f, ((save_batch_work meta f models []).map Prod.fst).Nodup ∧
      (save_batch meta model_name models f).2 =
        exMapM (fun p => execute_write meta model_name p.1 p.2)
          (save_batch_work meta f models [])) ∧
    (∀ f, (save_batch meta model_name models f).1 =
      models.map (fun m => { m with persisted := true })) := by
  have hbase : ∀ k, lookupKind ([] :
      List (WriteKind × List (List (String × Value)))) k = none := fun k => rfl
  refine ⟨⟨?_, ?_, ?_⟩, ⟨?_, ?_, ?_⟩, fun f => ⟨?_, rfl⟩, fun f => rfl⟩
  · rw [save_batch_work_lookup, hbase]
    have hfil : models.filter (fun m => decide (kindOf true m = .upsert)) =
        models := List.filter_eq_self.mpr (fun m _ => by simp [kindOf])
    rw [hfil]
  · rw [save_batch_work_lookup, hbase]
    have hfil : models.filter (fun m => decide (kindOf true m = .update)) =
        [] := List.filter_eq_nil_iff.mpr (fun m _ => by simp [kindOf])
    rw [hfil]
    simp
  · rw [save_batch_work_lookup, hbase]
    have hfil : models.filter (fun m => decide (kindOf true m = .insert)) =
        [] := List.filter_eq_nil_iff.mpr (fun m _ => by simp [kindOf])
    rw [hfil]
    simp
  · rw [save_batch_work_lookup, hbase]
    have hfil : models.filter (fun m => decide (kindOf false m = .update)) =
        models.filter (fun m => m.persisted) := by
      apply List.filter_congr
      intro m _
      cases hm : m.persisted <;> simp [kindOf, hm]
    rw [hfil]
  · rw [save_batch_work_lookup, hbase]
    have hfil : models.filter (fun m => decide (kindOf false m = .insert)) =
        models.filter (fun m => !m.persisted) := by
      apply List.filter_congr
      intro m _
      cases hm : m.persisted <;> simp [kindOf, hm]
    rw [hfil]
  · rw [save_batch_work_lookup, hbase]
    have hfil : models.filter (fun m => decide (kindOf false m = .upsert)) =
        [] := by
      apply List.filter_eq_nil_iff.mpr
      intro m _
      cases hm : m.persisted <;> simp [kindOf, hm]
    rw [hfil]
    simp
  · exact save_batch_work_keys_nodup meta f models [] (by simp)

/-! ### Claim C10 — find/find_multi require complete key mappings -/

theorem exMapM_ok_of_all {α β : Type} (g : α → Except SpannerErr β) :
    ∀ l : List α, (∀ a ∈ l, ∃ b, g a = .ok b) →
      ∃ bs, exMapM g l = .ok bs := by
  intro l
  induction l with
  | nil => exact fun _ => ⟨[], rfl⟩
  | cons a rest ih =>
    intro h
    obtain ⟨b, hb⟩ := h a (List.mem_cons_self a rest)
    obtain ⟨bs, hbs⟩ := ih (fun x hx => h x (List.mem_cons_of_mem a hx))
    exact ⟨b :: bs, by simp [exMapM, hb, hbs]⟩

theorem keyTuple_error {key : List (String × Value)} :
    ∀ pks : List String, (∃ c ∈ pks, aget key c = none) →
      ∃ c, c ∈ pks ∧ aget key c = none ∧
        exMapM (fun c => match aget key c with
          | some v => Except.ok v
          | none => Except.error (SpannerErr.keyErr c)) pks =
          .error (.keyErr c) := by
  intro pks
  induction pks with
  | nil => simp
  | cons c0 rest ih =>
    intro h
    cases hc : aget key c0 with
    | none =>
      refine ⟨c0, List.mem_cons_self c0 rest, hc, ?_⟩
      simp [exMapM, hc]
    | some v =>
      obtain ⟨c, hcm, hcn⟩ := h
      rcases List.mem_cons.mp hcm with rfl | hmem
      · rw [hc] at hcn; cases hcn
      · obtain ⟨c2, h1, h2, h3⟩ := ih ⟨c, hmem, hcn⟩
        refine ⟨c2, List.mem_cons_of_mem c0 h1, h2, ?_⟩
        simp [exMapM, hc, h3]

theorem buildKeyVals_error {meta : Meta} :
    ∀ keys : List (List (String × Value)),
      (∃ km ∈ keys, ∃ c ∈ meta.primary_keys, aget km c = none) →
      ∃ c, c ∈ meta.primary_keys ∧
        buildKeyVals meta keys = .error (.keyErr c) := by
  intro keys
  induction keys with
  | nil => simp
  | cons k0 rest ih =>
    intro h
    by_cases h0 : ∃ c ∈ meta.primary_keys, aget k0 c = none
    · obtain ⟨c, h1, h2, h3⟩ := keyTuple_error meta.primary_keys h0
      refine ⟨c, h1, ?_⟩
      simp only [buildKeyVals, exMapM]
      rw [h3]
    · have hforall : ∀ c ∈ meta.primary_keys, aget k0 c ≠ none :=
        fun c hc hn => h0 ⟨c, hc, hn⟩
      have hok : ∃ t, exMapM (fun c => match aget k0 c with
          | some v => Except.ok v
          | none => Except.error (SpannerErr.keyErr c))
            meta.primary_keys = .ok t := by
        apply exMapM_ok_of_all
        intro c hc
        cases hac : aget k0 c with
        | none => exact absurd hac (hforall c hc)
        | some v => exact ⟨v, by simp [hac]⟩
      obtain ⟨t, ht⟩ := hok
      obtain ⟨km, hkm, hx⟩ := h
      rcases List.mem_cons.mp hkm with rfl | hmem
      · exact absurd hx h0
      · obtain ⟨c, h1, hbv⟩ := ih ⟨km, hmem, hx⟩
        refine ⟨c, h1, ?_⟩
        simp only [buildKeyVals, exMapM] at hbv ⊢
        rw [ht, hbv]

/-- Claim C10: `find_multi` requires every supplied key mapping to contain an
entry for each primary-key column — a missing entry fails with a lookup error
while building the keyset, issuing no read; with all entries present, it
builds the keyset and issues exactly one read; and `find` (whose keyword
constraints form the single key mapping) inherits the same precondition. -/
theorem claim_C10 (meta : Meta) (st : Store)
    (keys : List (List (String × Value))) (key : List (String × Value)) :
    ((∃ km ∈ keys, ∃ c ∈ meta.primary_keys, aget km c = none) →
      ∃ c, c ∈ meta.primary_keys ∧
        find_multi meta st keys = (.error (.keyErr c), [])) ∧
    ((∀ km ∈ keys, ∀ c ∈ meta.primary_keys, (aget km c).isSome) →
      ∃ kvs, buildKeyVals meta keys = .ok kvs ∧
        find_multi meta st keys =
          (.ok ((dbFind meta st kvs).map (resultToModel meta)),
            [{ table := meta.table, columns := meta.columns,
               key_values := kvs }])) ∧
    ((∃ c ∈ meta.primary_keys, aget key c = none) →
      ∃ c, c ∈ meta.primary_keys ∧
        find meta st key = (.error (.keyErr c), [])) := by
  refine ⟨?_, ?_, ?_⟩
  · intro h
    obtain ⟨c, h1, h2⟩ := buildKeyVals_error keys h
    refine ⟨c, h1, ?_⟩
    simp [find_multi, h2]
  · intro h
    have hok : ∃ kvs, buildKeyVals meta keys = .ok kvs := by
      unfold buildKeyVals
      apply exMapM_ok_of_all
      intro km hkm
      apply exMapM_ok_of_all
      intro c hc
      cases hac : aget km c with
      | none =>
        have := h km hkm c hc
        rw [hac] at this
        cases this
      | some v => exact ⟨v, by simp [hac]⟩
    obtain ⟨kvs, hkvs⟩ := hok
    refine ⟨kvs, hkvs, ?_⟩
    simp [find_multi, hkvs]
  · intro h
    obtain ⟨c, h1, h2⟩ := buildKeyVals_error [key] ⟨key, List.mem_cons_self key [], h⟩
    refine ⟨c, h1, ?_⟩
    simp [find, find_multi, h2]

/-- Witness for C10: requesting keys `[{id: 1}, {nope: 2}]` from `M1` fails
with the lookup error for `id` and issues no read. -/
theorem claim_C10_witness :
    ∃ c, c ∈ M1.primary_keys ∧
      find_multi M1 st1 [[("id", Value.intV 1)], [("nope", Value.intV 2)]] =
        (.error (.keyErr c), []) :=
  (claim_C10 M1 st1 [[("id", Value.intV 1)], [("nope", Value.intV 2)]] []).1
    ⟨[("nope", Value.intV 2)], by decide, "id", by decide, by decide⟩

/-! ### Claim C2 — reload overwrites live values but not the baseline -/

theorem setAttr_ok {meta : Meta} {m m' : ModelInst} {c : String} {v : Value}
    (hf : (aget meta.fields c).isSome)
    (h : m.setAttr meta c v = .ok m') :
    m'.values = aset m.values c v ∧ m'.start_values = m.start_values ∧
      m'.persisted = m.persisted ∧ m'.rel_values = m.rel_values := by
  unfold ModelInst.setAttr at h
  by_cases h1 : c ∈ meta.relations
  · rw [if_pos h1] at h
    exact Except.noConfusion h
  · rw [if_neg h1, if_pos hf] at h
    by_cases h2 : c ∈ meta.primary_keys
    · rw [if_pos h2] at h
      exact Except.noConfusion h
    · rw [if_neg h2] at h
      by_cases h3 : validateCol meta c v
      · rw [if_pos h3] at h
        cases h
        exact ⟨rfl, rfl, rfl, rfl⟩
      · rw [if_neg h3] at h
        exact Except.noConfusion h

theorem setCols_ok {meta : Meta} {u : ModelInst} :
    ∀ (cs : List String) (m m' : ModelInst),
      (∀ c ∈ cs, (aget meta.fields c).isSome) →
      setCols meta u cs m = .ok m' →
      m'.start_values = m.start_values ∧ m'.persisted = m.persisted ∧
      m'.rel_values = m.rel_values ∧
      (∀ c ∈ cs, aget m'.values c = some (vgetD u.values c)) ∧
      (∀ c, c ∉ cs → aget m'.values c = aget m.values c) := by
  intro cs
  induction cs with
  | nil =>
    intro m m' _ h
    simp only [setCols] at h
    cases h
    exact ⟨rfl, rfl, rfl, by simp, fun c _ => rfl⟩
  | cons c0 rest ih =>
    intro m m' hf h
    simp only [setCols] at h
    cases hset : m.setAttr meta c0 (vgetD u.values c0) with
    | error e =>
      rw [hset] at h
      exact Except.noConfusion h
    | ok m1 =>
      rw [hset] at h
      obtain ⟨hv, hs, hp, hr⟩ :=
        setAttr_ok (hf c0 (List.mem_cons_self c0 rest)) hset
      obtain ⟨ih1, ih2, ih3, ih4, ih5⟩ :=
        ih m1 m' (fun c hc => hf c (List.mem_cons_of_mem c0 hc)) h
      refine ⟨ih1.trans hs, ih2.trans hp, ih3.trans hr, ?_, ?_⟩
      · intro c hc
        rcases List.mem_cons.mp hc with rfl | hmem
        · by_cases hin : c ∈ rest
          · exact ih4 c hin
          · rw [ih5 c hin, hv, aget_aset_self]
        · exact ih4 c hmem
      · intro c hc
        have h1 : c ∉ rest := fun hm => hc (List.mem_cons_of_mem c0 hm)
        have h2 : c ≠ c0 := fun he => hc (he ▸ List.mem_cons_self c0 rest)
        rw [ih5 c h1, hv, aget_aset_ne _ _ h2]

/-- Counterexample to claim C2 as stated: reloading `demoPersisted` (baseline
`data = 0`) against a store holding `data = 5` sets the live `data` to the
stored value, yet `changes()` afterwards reports `data` — the baseline
snapshot was not reset to the reloaded values. -/
theorem claim_C2_counterexample :
    demoPersisted.reload M1 st1 = .ok (some demoReloaded) ∧
    vgetD demoReloaded.values "data" = Value.intV 5 ∧
    demoReloaded.start_values ≠ demoReloaded.values ∧
    demoReloaded.changes M1 = [("data", Value.intV 5)] ∧
    demoReloaded.changes M1 ≠ [] := by decide

/-- Claim C2 (amended): when `reload` finds the row, it overwrites every
non-primary-key column with the fetched value, leaves the primary-key
columns untouched, and marks the instance persisted — but the baseline
snapshot is NOT reset: `start_values` stays exactly what it was before the
reload, so a later `changes()` compares the reloaded values against the old
baseline rather than returning an empty mapping. -/
theorem claim_C2_amended (meta : Meta) (st : Store) (m m' : ModelInst)
    (h : m.reload meta st = .ok (some m')) :
    m'.persisted = true ∧
    m'.start_values = m.start_values ∧
    m'.rel_values = m.rel_values ∧
    ∃ u, (find meta st (m.id meta)).1 = .ok (some u) ∧
      (∀ c ∈ meta.columns, c ∉ meta.primary_keys →
        aget m'.values c = some (vgetD u.values c)) ∧
      (∀ c ∈ meta.primary_keys, aget m'.values c = aget m.values c) := by
  unfold ModelInst.reload at h
  cases hfind : (find meta st (m.id meta)).1 with
  | error e =>
    rw [hfind] at h
    exact Except.noConfusion h
  | ok o =>
    cases o with
    | none =>
      rw [hfind] at h
      simp at h
    | some u =>
      simp only [hfind] at h
      cases hset : setCols meta u
          (meta.columns.filter (fun c => decide (c ∉ meta.primary_keys))) m with
      | error e =>
        simp only [hset] at h
        exact Except.noConfusion h
      | ok m2 =>
        simp only [hset, Except.ok.injEq, Option.some.injEq] at h
        subst h
        have hfields : ∀ c ∈ meta.columns.filter
            (fun c => decide (c ∉ meta.primary_keys)),
            (aget meta.fields c).isSome := by
          intro c hc
          exact (aget_fields_isSome meta c).mpr (List.mem_filter.mp hc).1
        obtain ⟨h1, h2, h3, h4, h5⟩ := setCols_ok _ m m2 hfields hset
        refine ⟨rfl, h1, h3, u, rfl, ?_, ?_⟩
        · intro c hcc hcp
          exact h4 c (List.mem_filter.mpr ⟨hcc, by simpa using hcp⟩)
        · intro c hcp
          refine h5 c (fun hm => ?_)
          exact (by simpa using (List.mem_filter.mp hm).2 : c ∉ meta.primary_keys) hcp

/-- Witness for the amended C2 at a concrete input: the reload of
`demoPersisted` against `st1`. -/
theorem claim_C2_witness :
    demoReloaded.persisted = true ∧
    demoReloaded.start_values = demoPersisted.start_values ∧
    demoReloaded.rel_values = demoPersisted.rel_values ∧
    ∃ u, (find M1 st1 (demoPersisted.id M1)).1 = .ok (some u) ∧
      (∀ c ∈ M1.columns, c ∉ M1.primary_keys →
        aget demoReloaded.values c = some (vgetD u.values c)) ∧
      (∀ c ∈ M1.primary_keys,
        aget demoReloaded.values c = aget demoPersisted.values c) :=
  claim_C2_amended M1 st1 demoPersisted demoReloaded (by decide)

/-! ### Claim C4 — saving a fresh instance -/

/-- Counterexample to claim C4 as stated: a fresh instance mutated after
construction but before its first save.  The first save issues the insert
and flips the flag, but a second save — with no mutation between the two
saves — issues an update write rather than zero writes, because `save` never
resets the baseline snapshot. -/
theorem claim_C4_counterexample :
    demoFreshMut.persisted = false ∧
    demoFreshMut.save M1 "TestModel" =
      .ok (demoFreshSaved,
        [{ kind := .insert, table := "TestTable",
           columns := some ["id", "data"],
           values := [[Value.intV 1, Value.intV 1]] }]) ∧
    demoFreshSaved.save M1 "TestModel" =
      .ok (demoFreshSaved,
        [{ kind := .update, table := "TestTable",
           columns := some ["data", "id"],
           values := [[Value.intV 1, Value.intV 1]] }]) := by decide

/-- Claim C4 (amended): for every fresh instance as constructed (not mutated
since construction), `save()` issues exactly one insert-shaped write carrying
the full current value set and flips the persisted flag to true, and a second
`save()` with no intervening mutation issues zero writes.  If the instance
was mutated between construction and the first save, the second save instead
issues an update write (see the counterexample), since the baseline snapshot
is never reset. -/
theorem claim_C4_amended (meta : Meta) (model_name : String)
    (values : List (String × Value)) (m : ModelInst)
    (h : initModel meta values false = .ok m) :
    m.persisted = false ∧
    m.save meta model_name =
      .ok ({ m with persisted := true },
        [{ kind := .insert, table := meta.table,
           columns := some meta.columns,
           values := [meta.columns.map (fun c => vgetD values c)] }]) ∧
    ModelInst.save { m with persisted := true } meta model_name =
      .ok ({ m with persisted := true }, []) := by
  simp only [initModel, Bool.false_eq_true, if_false] at h
  by_cases hmiss : missingOf meta values = []
  case neg =>
    rw [if_neg hmiss] at h
    exact Except.noConfusion h
  rw [if_pos hmiss] at h
  cases hfi : firstInvalid meta values with
  | some c =>
    simp only [hfi] at h
    exact Except.noConfusion h
  | none =>
    simp only [hfi] at h
    cases h
    have hvalid : ∀ c ∈ meta.columns,
        validateCol meta c (vgetD values c) = true := by
      intro c hc
      have := List.find?_eq_none.mp hfi c hc
      simpa using this
    have hvm : (populate meta values false).values_map meta =
        meta.columns.map (fun c => (c, vgetD values c)) := by
      unfold ModelInst.values_map
      apply List.map_congr_left
      intro c hc
      exact congrArg (Prod.mk c) (vgetD_map_self meta.columns _ hc)
    have hkeys : keysOf (meta.columns.map (fun c => (c, vgetD values c))) =
        meta.columns := keysOf_map_pair meta.columns _
    have hinv : (keysOf (meta.columns.map (fun c => (c, vgetD values c)))).filter
        (fun k => decide (k ∉ meta.columns)) = [] := by
      rw [hkeys]
      apply List.filter_eq_nil_iff.mpr
      intro k hk
      simp [hk]
    have hfind : (meta.columns.map (fun c => (c, vgetD values c))).find?
        (fun p => !validateCol meta p.1 p.2) = none := by
      apply List.find?_eq_none.mpr
      intro p hp
      obtain ⟨c, hc, rfl⟩ := List.mem_map.mp hp
      simp [hvalid c hc]
    have hrow : (keysOf (meta.columns.map (fun c => (c, vgetD values c)))).map
        (fun c => vgetD (meta.columns.map (fun c => (c, vgetD values c))) c) =
        meta.columns.map (fun c => vgetD values c) := by
      rw [hkeys]
      apply List.map_congr_left
      intro c hc
      exact vgetD_map_self meta.columns _ hc
    have hcreate : create meta model_name
        ((populate meta values false).values_map meta) =
        .ok { kind := .insert, table := meta.table,
              columns := some meta.columns,
              values := [meta.columns.map (fun c => vgetD values c)] } := by
      rw [hvm]
      unfold create execute_write
      have haux : execute_write_aux meta model_name
          [meta.columns.map (fun c => (c, vgetD values c))] none [] =
          .ok (some meta.columns, [meta.columns.map (fun c => vgetD values c)]) := by
        simp only [execute_write_aux, Option.getD_none]
        rw [if_pos hinv, if_pos (keysEqSet_refl _)]
        simp only [hfind]
        rw [hrow, hkeys]
        simp
      rw [haux]
    have hchanges : (populate meta values false).changes meta = [] := by
      unfold ModelInst.changes
      have hfil : meta.columns.filter (fun c =>
          decide (vgetD (populate meta values false).values c ≠
            vgetD (populate meta values false).start_values c)) = [] := by
        apply List.filter_eq_nil_iff.mpr
        intro c _
        simp [populate]
      rw [hfil]
      rfl
    refine ⟨rfl, ?_, ?_⟩
    · unfold ModelInst.save
      rw [if_neg (by simp [populate] : ¬ (populate meta values false).persisted = true)]
      rw [hcreate]
    · unfold ModelInst.save
      rw [if_pos rfl]
      have hch2 : ModelInst.changes
          { populate meta values false with persisted := true } meta = [] :=
        hchanges
      rw [if_pos hch2]

/-- Witness for the amended C4 at a concrete input: the fresh instance
`demoFresh`, saved twice with no mutation at all. -/
theorem claim_C4_witness :
    demoFresh.persisted = false ∧
    demoFresh.save M1 "TestModel" =
      .ok ({ demoFresh with persisted := true },
        [{ kind := .insert, table := M1.table,
           columns := some M1.columns,
           values := [M1.columns.map (fun c =>
             vgetD [("id", Value.intV 1), ("data", Value.intV 0)] c)] }]) ∧
    ModelInst.save { demoFresh with persisted := true } M1 "TestModel" =
      .ok ({ demoFresh with persisted := true }, []) :=
  claim_C4_amended M1 "TestModel"
    [("id", Value.intV 1), ("data", Value.intV 0)] demoFresh (by decide)

end SpannerOrm
